import Mathlib

/-!
Shallow embedding of the LingoPet spaced-repetition core
(`src/services/storageService.ts` and `src/components/ReviewSession.tsx`)
and proofs about it.

Modelling conventions:
* JavaScript numbers holding integer values (`currentLevel`, timestamps)
  become `Int`.
* `Date.now()` becomes an explicit `now : Int` parameter (milliseconds);
  `nextDate.setDate(getDate() + d)` is modelled as adding `d * msPerDay`
  milliseconds.
* Optional record fields (`todayImage?`, `translation?`, …) become
  `Option`; the nullable field `lastReviewedAt : number | null` becomes
  `Option Int` as well.
* The localStorage round-trip of `getWords`/`setItem` is abstracted: the
  word store is a `List WordEntry` threaded explicitly.
* `Math.random()`-driven choices in the Fisher-Yates loop are modelled by
  an oracle `rand : Nat → Nat`, reduced into range with `% (i + 1)`
  exactly where the code computes `Math.floor(Math.random() * (i + 1))`.
* The image-generation collaborator `generateCardImage` is an abstract
  function supplied as a parameter; the model counts how many calls to it
  each step issues.
-/

namespace LingoPet

/-- The `WordEntry` record of `src/types.ts` (fields relevant to the core). -/
structure WordEntry where
  id : String
  word : String
  definition : String
  translation : Option String
  context : String
  visualDescription : Option String
  addedAt : Int
  lastReviewedAt : Option Int
  reviewLevel : Int
  reviewCount : Int
  nextReviewDate : Int
  todayImage : Option String
  todayImageDate : Option String
deriving Repr, DecidableEq, Inhabited

/-- Milliseconds in one day, used to model `setDate(getDate() + d)`. -/
def msPerDay : Int := 86400000

/-- The result record of `calculateNextReview`. -/
structure ReviewResult where
  level : Int
  date : Int
deriving Repr, DecidableEq

/-- `const INTERVALS = [1, 3, 7, 14, 30]` (storageService.ts line 92). -/
def INTERVALS : List Int := [1, 3, 7, 14, 30]

/-- `calculateNextReview` (storageService.ts lines 94-105):
if `!wasCorrect` return `{ level: 0, date: Date.now() }`; otherwise
`nextLevel = Math.min(currentLevel + 1, INTERVALS.length)`,
`daysToAdd = INTERVALS[Math.max(0, nextLevel - 1)]`, and the date is
`now` plus that many days. -/
def calculateNextReview (now : Int) (currentLevel : Int) (wasCorrect : Bool) :
    ReviewResult :=
  if !wasCorrect then
    { level := 0, date := now }
  else
    let nextLevel : Int := min (currentLevel + 1) (INTERVALS.length : Int)
    let daysToAdd : Int := INTERVALS.getD (max 0 (nextLevel - 1)).toNat 0
    { level := nextLevel, date := now + daysToAdd * msPerDay }

/-- ASCII model of JavaScript's `toLowerCase()`. -/
def lowerStr (s : String) : String := ⟨s.data.map Char.toLower⟩

/-- `{ ...old, ...nw, id: old.id }`: every required field of `nw`
overwrites the old one, an optional field of `nw` overwrites only when
present (absent keys do not appear in a spread), and the original `id`
is kept. -/
def mergeEntry (old nw : WordEntry) : WordEntry :=
  { nw with
    id := old.id
    translation := nw.translation.orElse fun _ => old.translation
    visualDescription := nw.visualDescription.orElse fun _ => old.visualDescription
    todayImage := nw.todayImage.orElse fun _ => old.todayImage
    todayImageDate := nw.todayImageDate.orElse fun _ => old.todayImageDate }

/-- `saveWord` (storageService.ts lines 19-28): find the first entry whose
lowercased headword matches, replace it by the spread-merge keeping its
`id`; otherwise push the new word with `reviewCount` initialized to 0.
The localStorage get/set round-trip is abstracted into the list argument
and result. -/
def saveWord (words : List WordEntry) (nw : WordEntry) : List WordEntry :=
  match words.findIdx? (fun w => lowerStr w.word == lowerStr nw.word) with
  | some i => words.set i (mergeEntry (words.getD i default) nw)
  | none => words ++ [{ nw with reviewCount := 0 }]

/-- A partial update passed to `updateWord`; `none` means the field is
absent from the `Partial<WordEntry>` object, an inner value is the new
field value (for nullable/optional fields the inner value is itself an
`Option`). Only the fields the session ever patches are represented. -/
structure WordPatch where
  reviewLevel : Option Int := none
  nextReviewDate : Option Int := none
  lastReviewedAt : Option (Option Int) := none
  reviewCount : Option Int := none
  todayImage : Option (Option String) := none
  todayImageDate : Option (Option String) := none
deriving Repr, DecidableEq

/-- `{ ...words[idx], ...updates }` for a `WordPatch`. -/
def applyPatch (w : WordEntry) (p : WordPatch) : WordEntry :=
  { w with
    reviewLevel := p.reviewLevel.getD w.reviewLevel
    nextReviewDate := p.nextReviewDate.getD w.nextReviewDate
    lastReviewedAt := p.lastReviewedAt.getD w.lastReviewedAt
    reviewCount := p.reviewCount.getD w.reviewCount
    todayImage := p.todayImage.getD w.todayImage
    todayImageDate := p.todayImageDate.getD w.todayImageDate }

/-- `updateWord` (storageService.ts lines 30-37): find the first entry
with the given `id`, merge the updates onto it, write the list back;
do nothing when the `id` is absent. -/
def updateWord (words : List WordEntry) (id : String) (p : WordPatch) :
    List WordEntry :=
  match words.findIdx? (fun w => w.id == id) with
  | some i => words.set i (applyPatch (words.getD i default) p)
  | none => words

/-- The observable state of one `ReviewSession`
(`src/components/ReviewSession.tsx`): the word store behind
`updateWord`, the session's word queue (`sessionWords`), the cursor
(`currentIndex`), and the list of `onComplete` payloads emitted so far. -/
structure EngineState where
  store : List WordEntry
  queue : List WordEntry
  cursor : Nat
  events : List Int
deriving Repr, DecidableEq

/-- Session construction: `useState(words)` / `useState(0)`; no
`onComplete` call has happened. -/
def initSession (store queue : List WordEntry) : EngineState :=
  { store := store, queue := queue, cursor := 0, events := [] }

/-- `finishSession` (ReviewSession.tsx lines 188-191): emits
`onComplete(50)`. -/
def finishSession (s : EngineState) : EngineState :=
  { s with events := s.events ++ [50] }

/-- The Exit control (ReviewSession.tsx line 218): emits `onComplete(0)`. -/
def exitSession (s : EngineState) : EngineState :=
  { s with events := s.events ++ [0] }

/-- `handleNext` (ReviewSession.tsx lines 170-176): advance the cursor if
another card remains (`currentIndex < sessionWords.length - 1`),
otherwise finish the session. -/
def handleNext (s : EngineState) : EngineState :=
  if s.cursor + 1 < s.queue.length then
    { s with cursor := s.cursor + 1 }
  else
    finishSession s

/-- `handleRate` (ReviewSession.tsx lines 178-186): compute the schedule
from the current word's `reviewLevel` and the outcome, persist
`reviewLevel`, `nextReviewDate` and `lastReviewedAt` (and nothing else)
onto that word via `updateWord`, then `handleNext`. When no current word
exists the grading controls are not rendered, so the state is unchanged. -/
def handleRate (now : Int) (s : EngineState) (correct : Bool) : EngineState :=
  match s.queue[s.cursor]? with
  | none => s
  | some w =>
    let r := calculateNextReview now w.reviewLevel correct
    handleNext
      { s with
        store := updateWord s.store w.id
          { reviewLevel := some r.level
            nextReviewDate := some r.date
            lastReviewedAt := some (some now) } }

/-- A sequence of `grade` calls, first outcome first. -/
def runGrades (now : Int) : List Bool → EngineState → EngineState
  | [], s => s
  | b :: bs, s => runGrades now bs (handleRate now s b)

/-- The completed passive per-card sequence (ReviewSession.tsx lines
84-127), the run that reaches the auto-advance in step 6: if the cached
image is falsy or its date is not today, call the generator and persist
the image keyed by today onto the word; the narration, reveal and dwell
steps touch no persistent state; finally `handleNext`. -/
def runPassiveSequence (today : String) (gen : WordEntry → String)
    (s : EngineState) : EngineState :=
  match s.queue[s.cursor]? with
  | none => s
  | some w =>
    let s1 :=
      if (w.todayImage.getD "").isEmpty || w.todayImageDate != some today then
        { s with
          store := updateWord s.store w.id
            { todayImage := some (some (gen w))
              todayImageDate := some (some today) } }
      else s
    handleNext s1

/-- One swap `[u[i], u[j]] = [u[j], u[i]]` on a list; out-of-range `set`
is the identity, matching that the loop below only produces in-range
indices. -/
def listSwap {α : Type} [Inhabited α] (l : List α) (i j : Nat) : List α :=
  (l.set i (l.getD j default)).set j (l.getD i default)

/-- The Fisher-Yates loop of `shuffleQueue` (ReviewSession.tsx lines
72-75), counting down: at counter value `n + 1` swap position `n + 1`
with the random position `rand (n + 1) % (n + 2)`, modelling
`Math.floor(Math.random() * (i + 1))` for `i = n + 1`. -/
def fyLoop {α : Type} [Inhabited α] (rand : Nat → Nat) :
    Nat → List α → List α
  | 0, l => l
  | n + 1, l => fyLoop rand n (listSwap l (n + 1) (rand (n + 1) % (n + 2)))

/-- Full Fisher-Yates pass: loop from `length - 1` down to `1`. -/
def fisherYates {α : Type} [Inhabited α] (rand : Nat → Nat) (l : List α) :
    List α :=
  fyLoop rand (l.length - 1) l

/-- `shuffleQueue` (ReviewSession.tsx lines 63-81): return unchanged when
`currentIndex >= sessionWords.length - 1`; otherwise keep
`slice(0, currentIndex + 1)` and replace the rest by its Fisher-Yates
shuffle. `slice` and the array spread copy, so the caller's list is
rebuilt, never mutated in place. -/
def shuffleQueue (rand : Nat → Nat) (s : EngineState) : EngineState :=
  if s.cursor + 1 ≥ s.queue.length then s
  else
    { s with
      queue := s.queue.take (s.cursor + 1) ++
        fisherYates rand (s.queue.drop (s.cursor + 1)) }

/-- Whether the word carries a truthy cached image stored for `today`. -/
def sameDayCached (today : String) (w : WordEntry) : Bool :=
  !(w.todayImage.getD "").isEmpty && w.todayImageDate == some today

/-- The per-card illustration resolution, returning the updated entry and
the number of `generateCardImage` calls issued. Passive mode
(ReviewSession.tsx lines 92-102) regenerates when the cached image is
falsy or not dated today, and then issues two generator calls (one whose
result is persisted, one awaited); active mode (lines 136-150)
regenerates only when the cached image is falsy, issuing one call and
persisting its result keyed by today. -/
def resolveIllustration (modeActive : Bool) (today : String) (gen : String)
    (w : WordEntry) : WordEntry × Nat :=
  let imgFalsy := (w.todayImage.getD "").isEmpty
  let needsGen := if modeActive then imgFalsy
    else imgFalsy || w.todayImageDate != some today
  if needsGen then
    ({ w with todayImage := some gen, todayImageDate := some today },
     if modeActive then 1 else 2)
  else (w, 0)

/-- The empty-queue render guard (ReviewSession.tsx line 197): with no
current word the component shows the "All done!" placeholder. -/
def showsDonePlaceholder (s : EngineState) : Bool :=
  s.queue[s.cursor]?.isNone

/-- A sample stored entry (headword "Cat", review level 2) used by closed
witnesses and counterexamples. -/
def sampleCat : WordEntry :=
  { id := "id-cat", word := "Cat", definition := "a small feline",
    translation := some "mao", context := "the cat sat",
    visualDescription := none, addedAt := 100, lastReviewedAt := some 200,
    reviewLevel := 2, reviewCount := 4, nextReviewDate := 300,
    todayImage := some "cat.png", todayImageDate := some "2026-10-10" }

/-- A sample incoming entry (headword "cAT") used by closed witnesses. -/
def sampleCatNew : WordEntry :=
  { id := "id-cat2", word := "cAT", definition := "updated feline",
    translation := none, context := "a cat ran",
    visualDescription := some "a running cat", addedAt := 400,
    lastReviewedAt := none, reviewLevel := 0, reviewCount := 9,
    nextReviewDate := 500, todayImage := none, todayImageDate := none }

/-- A sample stored entry (headword "dog", no cached image) used by closed
witnesses and counterexamples. -/
def sampleDog : WordEntry :=
  { id := "id-dog", word := "dog", definition := "a canine",
    translation := none, context := "the dog barked",
    visualDescription := none, addedAt := 600, lastReviewedAt := none,
    reviewLevel := 1, reviewCount := 1, nextReviewDate := 700,
    todayImage := none, todayImageDate := none }

/-! ## Theorems -/

/-- C1: for every `currentLevel ≥ 0`, a correct answer yields
`level = min(currentLevel + 1, 5)` and a date `now` plus
`INTERVALS[level - 1]` days; concretely levels 0, 1, 4, 5 map to
levels 1, 2, 5, 5 with delays 1, 3, 30, 30 days, and the returned level
never exceeds 5. -/
theorem calculateNextReview_correct_spec (now currentLevel : Int)
    (h : 0 ≤ currentLevel) :
    (calculateNextReview now currentLevel true).level =
        min (currentLevel + 1) 5 ∧
    (calculateNextReview now currentLevel true).date =
        now + (INTERVALS.getD
          ((calculateNextReview now currentLevel true).level - 1).toNat 0)
          * msPerDay ∧
    (calculateNextReview now currentLevel true).level ≤ 5 ∧
    calculateNextReview now 0 true = ⟨1, now + 1 * msPerDay⟩ ∧
    calculateNextReview now 1 true = ⟨2, now + 3 * msPerDay⟩ ∧
    calculateNextReview now 4 true = ⟨5, now + 30 * msPerDay⟩ ∧
    calculateNextReview now 5 true = ⟨5, now + 30 * msPerDay⟩ := by
  have hunfold : ∀ cl : Int, calculateNextReview now cl true =
      ⟨min (cl + 1) 5,
       now + (INTERVALS.getD (max 0 (min (cl + 1) 5 - 1)).toNat 0) * msPerDay⟩ := by
    intro cl
    simp [calculateNextReview, INTERVALS]
  have hmin : (1 : Int) ≤ min (currentLevel + 1) 5 := by omega
  have hmax : max 0 (min (currentLevel + 1) 5 - 1) =
      min (currentLevel + 1) 5 - 1 := by omega
  refine ⟨?_, ?_, ?_, ?_, ?_, ?_, ?_⟩
  · rw [hunfold]
  · simp only [hunfold, hmax]
  · rw [hunfold]; exact le_trans (min_le_right _ _) (by norm_num)
  · rw [hunfold]; norm_num [INTERVALS]
  · rw [hunfold]; norm_num [INTERVALS]
  · rw [hunfold]; norm_num [INTERVALS]; decide
  · rw [hunfold]; norm_num [INTERVALS]; decide

/-- Closed-form witness for `calculateNextReview_correct_spec` at
`now = 1000`, `currentLevel = 3`. -/
theorem calculateNextReview_correct_spec_witness :
    (0 : Int) ≤ 3 ∧
    ((calculateNextReview 1000 3 true).level = min (3 + 1) 5 ∧
     (calculateNextReview 1000 3 true).date =
        1000 + (INTERVALS.getD
          ((calculateNextReview 1000 3 true).level - 1).toNat 0) * msPerDay ∧
     (calculateNextReview 1000 3 true).level ≤ 5 ∧
     calculateNextReview 1000 0 true = ⟨1, 1000 + 1 * msPerDay⟩ ∧
     calculateNextReview 1000 1 true = ⟨2, 1000 + 3 * msPerDay⟩ ∧
     calculateNextReview 1000 4 true = ⟨5, 1000 + 30 * msPerDay⟩ ∧
     calculateNextReview 1000 5 true = ⟨5, 1000 + 30 * msPerDay⟩) :=
  ⟨by decide, calculateNextReview_correct_spec 1000 3 (by decide)⟩

/-- C2: for every `currentLevel`, an incorrect answer resets the word to
level 0 with a date equal to the current time. -/
theorem calculateNextReview_incorrect_resets (now currentLevel : Int) :
    calculateNextReview now currentLevel false = ⟨0, now⟩ := rfl

/-- C7 counterexample: `calculateNextReview (-5) true` returns level `-4`,
which is negative and differs from the result at level 0 — the code only
clamps the table index (`Math.max(0, nextLevel - 1)`), not the returned
level, so a negative `currentLevel` is not treated as 0. -/
theorem calculateNextReview_negative_counterexample :
    (calculateNextReview 0 (-5) true).level = -4 ∧
    (calculateNextReview 0 (-5) true).level < 0 ∧
    calculateNextReview 0 (-5) true ≠ calculateNextReview 0 0 true := by
  refine ⟨?_, ?_, ?_⟩ <;> simp [calculateNextReview, INTERVALS]

/-- C7 amended: `calculateNextReview` is total (the clamped table index is
always in bounds), an incorrect answer at a negative level behaves exactly
as at level 0, and a correct answer at a negative level yields the same
date as at level 0 (the index clamp falls back to the first interval) —
but the returned level is the unclamped `currentLevel + 1`, which is
negative whenever `currentLevel < -1`. -/
theorem calculateNextReview_negative_amended (now currentLevel : Int)
    (h : currentLevel < 0) :
    calculateNextReview now currentLevel false = calculateNextReview now 0 false ∧
    (calculateNextReview now currentLevel true).date =
      (calculateNextReview now 0 true).date ∧
    (calculateNextReview now currentLevel true).level = currentLevel + 1 ∧
    (max 0 (min (currentLevel + 1) (INTERVALS.length : Int) - 1)).toNat <
      INTERVALS.length := by
  have hmin : min (currentLevel + 1) (5 : Int) = currentLevel + 1 :=
    min_eq_left (by omega)
  have hmax : max (0 : Int) currentLevel = 0 := max_eq_left (by omega)
  refine ⟨rfl, ?_, ?_, ?_⟩
  · simp [calculateNextReview, INTERVALS, hmin, hmax]
  · simp [calculateNextReview, INTERVALS, hmin]
  · simp only [INTERVALS]
    norm_num
    omega

/-- Closed-form witness for `calculateNextReview_negative_amended` at
`now = 7`, `currentLevel = -2`. -/
theorem calculateNextReview_negative_amended_witness :
    (-2 : Int) < 0 ∧
    (calculateNextReview 7 (-2) false = calculateNextReview 7 0 false ∧
     (calculateNextReview 7 (-2) true).date = (calculateNextReview 7 0 true).date ∧
     (calculateNextReview 7 (-2) true).level = -2 + 1 ∧
     (max 0 (min ((-2 : Int) + 1) (INTERVALS.length : Int) - 1)).toNat <
       INTERVALS.length) :=
  ⟨by decide, calculateNextReview_negative_amended 7 (-2) (by decide)⟩

/-- Setting at the position right after a given front segment replaces the
element there. -/
theorem set_after_front {α : Type} (front back : List α) (w x : α) :
    (front ++ w :: back).set front.length x = front ++ x :: back := by
  induction front with
  | nil => rfl
  | cons a t ih => simp [ih]

/-- Reading at the position right after a given front segment yields the
element there. -/
theorem getD_after_front {α : Type} (front back : List α) (w d : α) :
    (front ++ w :: back).getD front.length d = w := by
  induction front with
  | nil => rfl
  | cons a t ih =>
    simp only [List.cons_append, List.length_cons, List.getD_cons_succ]
    exact ih

/-- `findIdx?` on a list whose front segment has no match and whose next
element matches returns the front segment's length (shifted by the
accumulator). -/
theorem findIdx?_after_front {α : Type} (p : α → Bool) :
    ∀ (front : List α) (w : α) (back : List α) (i : Nat),
      (∀ x ∈ front, p x = false) → p w = true →
      List.findIdx? p (front ++ w :: back) i = some (i + front.length) := by
  intro front
  induction front with
  | nil =>
    intro w back i _ hw
    simp [List.findIdx?_cons, hw]
  | cons a t ih =>
    intro w back i hfront hw
    have ha : p a = false := hfront a (by simp)
    have := ih w back (i + 1) (fun x hx => hfront x (by simp [hx])) hw
    simp only [List.cons_append, List.findIdx?_cons, ha]
    rw [if_neg (by simp)]
    rw [this]
    congr 1
    simp only [List.length_cons]
    omega

/-- C10: `saveWord` appends the new word with `reviewCount := 0` when no
stored entry matches its lowercased headword; when the store is
`front ++ w :: back` with `w` the first lowercase match, the result
replaces `w` by the merge of `w`'s fields with the new word's fields,
keeps `w`'s `id`, and leaves the length (and every other entry)
unchanged. -/
theorem saveWord_spec (words front back : List WordEntry) (w nw : WordEntry) :
    ((∀ x ∈ words, lowerStr x.word ≠ lowerStr nw.word) →
       saveWord words nw = words ++ [{ nw with reviewCount := 0 }]) ∧
    ((∀ x ∈ front, lowerStr x.word ≠ lowerStr nw.word) →
      lowerStr w.word = lowerStr nw.word →
        saveWord (front ++ w :: back) nw = front ++ mergeEntry w nw :: back ∧
        (mergeEntry w nw).id = w.id ∧
        (saveWord (front ++ w :: back) nw).length =
          (front ++ w :: back).length) := by
  constructor
  · intro hnone
    have hfind : List.findIdx?
        (fun x => lowerStr x.word == lowerStr nw.word) words = none := by
      rw [List.findIdx?_eq_none_iff]
      intro x hx
      simpa using hnone x hx
    simp [saveWord, hfind]
  · intro hfront hw
    have hfind : List.findIdx?
        (fun x => lowerStr x.word == lowerStr nw.word) (front ++ w :: back) 0 =
        some front.length := by
      have := findIdx?_after_front
        (fun x => lowerStr x.word == lowerStr nw.word) front w back 0
        (fun x hx => by simpa using hfront x hx) (by simpa using hw)
      simpa using this
    have hrepl : saveWord (front ++ w :: back) nw =
        front ++ mergeEntry w nw :: back := by
      simp only [saveWord, hfind, getD_after_front, set_after_front]
    refine ⟨hrepl, rfl, ?_⟩
    rw [hrepl]
    simp

/-- Closed-form witness for `saveWord_spec`: appending past a non-matching
store, and replacing the matching entry of `[sampleDog, sampleCat]`. -/
theorem saveWord_spec_witness :
    (saveWord [sampleDog] sampleCatNew =
      [sampleDog] ++ [{ sampleCatNew with reviewCount := 0 }]) ∧
    (saveWord ([sampleDog] ++ sampleCat :: []) sampleCatNew =
        [sampleDog] ++ mergeEntry sampleCat sampleCatNew :: [] ∧
      (mergeEntry sampleCat sampleCatNew).id = sampleCat.id ∧
      (saveWord ([sampleDog] ++ sampleCat :: []) sampleCatNew).length =
        ([sampleDog] ++ sampleCat :: []).length) :=
  ⟨(saveWord_spec [sampleDog] [sampleDog] [] sampleCat sampleCatNew).1
      (by intro x hx; fin_cases hx; decide),
   (saveWord_spec [sampleDog] [sampleDog] [] sampleCat sampleCatNew).2
      (by intro x hx; fin_cases hx; decide) (by decide)⟩

/-- A swap leaves the list length unchanged. -/
theorem listSwap_length {α : Type} [Inhabited α] (l : List α) (i j : Nat) :
    (listSwap l i j).length = l.length := by
  simp [listSwap]

/-- An in-range swap permutes the list. -/
theorem listSwap_perm {α : Type} [Inhabited α] [DecidableEq α]
    (l : List α) (i j : Nat) (hi : i < l.length) (hj : j < l.length) :
    (listSwap l i j).Perm l := by
  rw [List.perm_iff_count]
  intro a
  unfold listSwap
  have hgd_i : l.getD i default = l[i] := by
    simp [List.getD, List.getElem?_eq_getElem hi]
  have hgd_j : l.getD j default = l[j] := by
    simp [List.getD, List.getElem?_eq_getElem hj]
  rw [hgd_i, hgd_j]
  have hcpos : (l[i] == a) = true → 1 ≤ List.count a l := by
    intro hb
    have hb' : l[i] = a := by simpa using hb
    exact List.count_pos_iff.mpr (hb' ▸ List.getElem_mem hi)
  by_cases hij : i = j
  · subst hij
    rw [List.set_set]
    rw [List.count_set _ _ _ _ hi]
    split_ifs with h1
    · have := hcpos h1
      omega
    · omega
  · have hj' : j < (l.set i l[j]).length := by simpa using hj
    rw [List.count_set _ _ _ _ hj']
    rw [List.count_set _ _ _ _ hi]
    have hgetj : (l.set i l[j])[j] = l[j] := List.getElem_set_ne hij hj'
    rw [hgetj]
    split_ifs with h1 h2
    · have := hcpos h1
      omega
    · have := hcpos h1
      omega
    · omega
    · omega

/-- The Fisher-Yates loop permutes the list when the counter starts in
range. -/
theorem fyLoop_perm {α : Type} [Inhabited α] [DecidableEq α] (rand : Nat → Nat) :
    ∀ (n : Nat) (l : List α), n < l.length → (fyLoop rand n l).Perm l := by
  intro n
  induction n with
  | zero => intro l _; exact List.Perm.refl l
  | succ m ih =>
    intro l hn
    have hj : rand (m + 1) % (m + 2) < l.length :=
      lt_of_le_of_lt (Nat.le_of_lt_succ (Nat.mod_lt _ (by omega))) hn
    have hswap := listSwap_perm l (m + 1) (rand (m + 1) % (m + 2)) hn hj
    have hlen : m < (listSwap l (m + 1) (rand (m + 1) % (m + 2))).length := by
      rw [listSwap_length]; omega
    exact (ih _ hlen).trans hswap

/-- A full Fisher-Yates pass permutes any list. -/
theorem fisherYates_perm {α : Type} [Inhabited α] [DecidableEq α]
    (rand : Nat → Nat) (l : List α) : (fisherYates rand l).Perm l := by
  unfold fisherYates
  match l with
  | [] => exact List.Perm.refl _
  | a :: t =>
    exact fyLoop_perm rand (a :: t).length.pred (a :: t) (by simp)

/-- C5: for every queue, cursor and randomness, `shuffleQueue` keeps the
already-visited segment `queue[0..cursor]` identical, permutes the
multiset of `queue[cursor+1..end]`, is a no-op when at most one unvisited
entry remains, and touches neither the store, the cursor nor the emitted
events; the session operates on its own rebuilt list, so the caller's
input list is never mutated (the embedding is pure by construction,
mirroring `slice`/spread copies in the code). -/
theorem shuffleQueue_spec (rand : Nat → Nat) (s : EngineState) :
    (shuffleQueue rand s).queue.take (s.cursor + 1) =
      s.queue.take (s.cursor + 1) ∧
    ((shuffleQueue rand s).queue.drop (s.cursor + 1)).Perm
      (s.queue.drop (s.cursor + 1)) ∧
    (s.queue.length ≤ s.cursor + 2 → shuffleQueue rand s = s) ∧
    (shuffleQueue rand s).store = s.store ∧
    (shuffleQueue rand s).cursor = s.cursor ∧
    (shuffleQueue rand s).events = s.events := by
  by_cases hc : s.cursor + 1 ≥ s.queue.length
  · have hid : shuffleQueue rand s = s := by simp [shuffleQueue, hc]
    rw [hid]
    exact ⟨rfl, List.Perm.refl _, fun _ => rfl, rfl, rfl, rfl⟩
  · have hlt : s.cursor + 1 < s.queue.length := by omega
    have htlen : (s.queue.take (s.cursor + 1)).length = s.cursor + 1 := by
      rw [List.length_take]; omega
    have hq : (shuffleQueue rand s).queue =
        s.queue.take (s.cursor + 1) ++
          fisherYates rand (s.queue.drop (s.cursor + 1)) := by
      simp [shuffleQueue, hc]
    refine ⟨?_, ?_, ?_, ?_, ?_, ?_⟩
    · rw [hq, List.take_left' htlen]
    · rw [hq, List.drop_left' htlen]
      exact fisherYates_perm rand _
    · intro hle
      have hone : (s.queue.drop (s.cursor + 1)).length = 1 := by
        rw [List.length_drop]; omega
      have hfy : fisherYates rand (s.queue.drop (s.cursor + 1)) =
          s.queue.drop (s.cursor + 1) := by
        unfold fisherYates
        rw [hone]
        rfl
      have : (shuffleQueue rand s).queue = s.queue := by
        rw [hq, hfy, List.take_append_drop]
      cases s with
      | mk st q c e =>
        simp only [shuffleQueue] at *
        split at this <;> simp_all
    · simp [shuffleQueue, hc]
    · simp [shuffleQueue, hc]
    · simp [shuffleQueue, hc]

/-- Closed-form witness for `shuffleQueue_spec` on a two-word queue at
cursor 0: the visited card is kept and, with exactly one unvisited entry,
the call is a no-op. -/
theorem shuffleQueue_spec_witness :
    (shuffleQueue (fun _ => 0)
        (initSession [] [sampleCat, sampleDog])).queue.take 1 =
      ([sampleCat, sampleDog] : List WordEntry).take 1 ∧
    shuffleQueue (fun _ => 0) (initSession [] [sampleCat, sampleDog]) =
      initSession [] [sampleCat, sampleDog] :=
  ⟨(shuffleQueue_spec (fun _ => 0) (initSession [] [sampleCat, sampleDog])).1,
   (shuffleQueue_spec (fun _ => 0)
      (initSession [] [sampleCat, sampleDog])).2.2.1 (by decide)⟩

/-- Observable projections of one `grade` call: the queue is untouched;
mid-queue it advances the cursor without emitting anything; on the last
card it emits `onComplete(50)` and leaves the cursor in place. -/
theorem handleRate_proj (now : Int) (s : EngineState) (b : Bool)
    (h : s.cursor < s.queue.length) :
    (handleRate now s b).queue = s.queue ∧
    (s.cursor + 1 < s.queue.length →
      (handleRate now s b).cursor = s.cursor + 1 ∧
      (handleRate now s b).events = s.events) ∧
    (s.queue.length ≤ s.cursor + 1 →
      (handleRate now s b).events = s.events ++ [50] ∧
      (handleRate now s b).cursor = s.cursor) := by
  have hw : s.queue[s.cursor]? = some s.queue[s.cursor] :=
    List.getElem?_eq_getElem h
  by_cases hmid : s.cursor + 1 < s.queue.length
  · simp [handleRate, hw, handleNext, hmid]
  · simp [handleRate, hw, handleNext, hmid, finishSession]

/-- A run of grade calls that stays strictly inside the queue advances the
cursor once per call, keeps the queue, and emits nothing. -/
theorem runGrades_mid (now : Int) :
    ∀ (bs : List Bool) (s : EngineState),
      s.cursor + bs.length < s.queue.length →
      (runGrades now bs s).queue = s.queue ∧
      (runGrades now bs s).cursor = s.cursor + bs.length ∧
      (runGrades now bs s).events = s.events := by
  intro bs
  induction bs with
  | nil => intro s _; exact ⟨rfl, by simp [runGrades], rfl⟩
  | cons b bs ih =>
    intro s hlen
    simp only [List.length_cons] at hlen
    have hcur : s.cursor < s.queue.length := by omega
    have hmid : s.cursor + 1 < s.queue.length := by omega
    obtain ⟨hq, hadv, -⟩ := handleRate_proj now s b hcur
    obtain ⟨hc, he⟩ := hadv hmid
    have hrec := ih (handleRate now s b) (by rw [hq, hc]; omega)
    refine ⟨?_, ?_, ?_⟩
    · simpa [runGrades, hq] using hrec.1
    · have := hrec.2.1
      rw [hc] at this
      simpa [runGrades] using by rw [this]; omega
    · simpa [runGrades, he] using hrec.2.2

/-- A run of grade calls that exactly exhausts the queue ends by emitting
a single `onComplete(50)`. -/
theorem runGrades_full (now : Int) :
    ∀ (bs : List Bool) (s : EngineState), bs ≠ [] →
      s.cursor + bs.length = s.queue.length →
      (runGrades now bs s).events = s.events ++ [50] := by
  intro bs
  induction bs with
  | nil => intro s hne _; exact absurd rfl hne
  | cons b bs ih =>
    intro s _ hlen
    simp only [List.length_cons] at hlen
    have hcur : s.cursor < s.queue.length := by omega
    cases bs with
    | nil =>
      obtain ⟨-, -, hlast⟩ := handleRate_proj now s b hcur
      simp only [List.length_nil] at hlen
      have := hlast (by omega)
      simpa [runGrades] using this.1
    | cons b2 bs2 =>
      have hmid : s.cursor + 1 < s.queue.length := by
        simp only [List.length_cons] at hlen
        omega
      obtain ⟨hq, hadv, -⟩ := handleRate_proj now s b hcur
      obtain ⟨hc, he⟩ := hadv hmid
      have hrec := ih (handleRate now s b) (by simp) (by rw [hq, hc]; omega)
      rw [he] at hrec
      simpa [runGrades] using hrec

/-- C6: a session over `N ≥ 1` words, graded `N` times with any outcome
mix, emits `onComplete(50)` exactly once (the event list is `[50]`) and
emits nothing after only `k < N` grade calls; invoking Exit at any such
point emits `onComplete(0)` instead (the event list becomes `[0]`). -/
theorem session_completion_reward (now : Int) (store ws : List WordEntry)
    (outcomes : List Bool) (hN : 1 ≤ ws.length)
    (hlen : outcomes.length = ws.length) :
    (runGrades now outcomes (initSession store ws)).events = [50] ∧
    (∀ k, k < outcomes.length →
      (runGrades now (outcomes.take k) (initSession store ws)).events = []) ∧
    (∀ k, k < outcomes.length →
      (exitSession
        (runGrades now (outcomes.take k) (initSession store ws))).events =
        [0]) := by
  have hne : outcomes ≠ [] := by
    intro hempty
    rw [hempty] at hlen
    simp at hlen
    omega
  have hfull := runGrades_full now outcomes (initSession store ws) hne
    (by simp [initSession, hlen])
  have hmid : ∀ k, k < outcomes.length →
      (runGrades now (outcomes.take k) (initSession store ws)).events = [] := by
    intro k hk
    have := runGrades_mid now (outcomes.take k) (initSession store ws)
      (by simp [initSession]; omega)
    simpa [initSession] using this.2.2
  refine ⟨by simpa [initSession] using hfull, hmid, ?_⟩
  intro k hk
  simp [exitSession, hmid k hk]

/-- Closed-form witness for `session_completion_reward`: a one-word active
session graded once emits exactly `onComplete(50)`, and Exit before the
grade emits exactly `onComplete(0)`. -/
theorem session_completion_reward_witness :
    (runGrades 0 [true] (initSession [] [sampleCat])).events = [50] ∧
    (∀ k, k < ([true] : List Bool).length →
      (runGrades 0 (([true] : List Bool).take k)
        (initSession [] [sampleCat])).events = []) ∧
    (∀ k, k < ([true] : List Bool).length →
      (exitSession (runGrades 0 (([true] : List Bool).take k)
        (initSession [] [sampleCat]))).events = [0]) :=
  session_completion_reward 0 [] [sampleCat] [true] (by decide) rfl

/-- `updateWord` on a store whose first `id` match is `w'` replaces
exactly that entry by the patched one. -/
theorem updateWord_found (front back : List WordEntry) (w' : WordEntry)
    (id : String) (p : WordPatch)
    (hfront : ∀ x ∈ front, x.id ≠ id) (hw : w'.id = id) :
    updateWord (front ++ w' :: back) id p =
      front ++ applyPatch w' p :: back := by
  have hfind := findIdx?_after_front (fun w => w.id == id) front w' back 0
    (fun x hx => by simpa using hfront x hx) (by simpa using hw)
  simp only [Nat.zero_add] at hfind
  simp only [updateWord, hfind, getD_after_front, set_after_front]

/-- C3 amended: grading the current word (level 2, mid-queue) correct
persists `reviewLevel 3`, a `nextReviewDate` 7 days out and a fresh
`lastReviewedAt` onto that word's store entry in one update, then
advances the cursor by one — and the entry's `reviewCount` is left
unchanged (the code never increments it). -/
theorem handleRate_level2_amended (now : Int) (s : EngineState)
    (w w' : WordEntry) (front back : List WordEntry)
    (hcur : s.queue[s.cursor]? = some w)
    (hlevel : w.reviewLevel = 2)
    (hmid : s.cursor + 1 < s.queue.length)
    (hstore : s.store = front ++ w' :: back)
    (hid : w'.id = w.id)
    (hfront : ∀ x ∈ front, x.id ≠ w.id) :
    handleRate now s true =
      { s with
        store := front ++
          { w' with reviewLevel := 3, nextReviewDate := now + 7 * msPerDay,
                    lastReviewedAt := some now } :: back,
        cursor := s.cursor + 1 } ∧
    ({ w' with reviewLevel := 3, nextReviewDate := now + 7 * msPerDay,
               lastReviewedAt := some now } : WordEntry).reviewCount =
      w'.reviewCount := by
  have hcalc : calculateNextReview now w.reviewLevel true =
      ⟨3, now + 7 * msPerDay⟩ := by
    rw [hlevel]
    norm_num [calculateNextReview, INTERVALS]
    decide
  have hupd : updateWord s.store w.id
      { reviewLevel := some 3, nextReviewDate := some (now + 7 * msPerDay),
        lastReviewedAt := some (some now) } =
      front ++ { w' with reviewLevel := 3,
                         nextReviewDate := now + 7 * msPerDay,
                         lastReviewedAt := some now } :: back := by
    rw [hstore, updateWord_found front back w' w.id _ hfront hid]
    rfl
  refine ⟨?_, rfl⟩
  simp only [handleRate, hcur, hcalc]
  rw [hupd]
  simp [handleNext, hmid]

/-- Closed-form witness for `handleRate_level2_amended`: grading
`sampleCat` (level 2) correct at `now = 1000` with store
`[sampleDog, sampleCat]`. -/
theorem handleRate_level2_amended_witness :
    handleRate 1000 (initSession [sampleDog, sampleCat]
        [sampleCat, sampleDog]) true =
      { initSession [sampleDog, sampleCat] [sampleCat, sampleDog] with
        store := [sampleDog] ++
          { sampleCat with reviewLevel := 3,
                           nextReviewDate := 1000 + 7 * msPerDay,
                           lastReviewedAt := some 1000 } :: [],
        cursor := 0 + 1 } ∧
    ({ sampleCat with reviewLevel := 3,
                      nextReviewDate := 1000 + 7 * msPerDay,
                      lastReviewedAt := some 1000 } : WordEntry).reviewCount =
      sampleCat.reviewCount :=
  handleRate_level2_amended 1000
    (initSession [sampleDog, sampleCat] [sampleCat, sampleDog])
    sampleCat sampleCat [sampleDog] []
    (by decide) (by decide) (by decide) (by decide) (by decide)
    (by intro x hx; fin_cases hx; decide)

/-- C3 counterexample: grading the level-2 word `sampleCat` correct leaves
its stored `reviewCount` at 4 — not 4 + 1 as the claim requires; no code
path of `handleRate` touches `reviewCount`. -/
theorem handleRate_reviewCount_counterexample :
    ((handleRate 1000 (initSession [sampleCat] [sampleCat, sampleDog])
        true).store.getD 0 default).reviewCount = sampleCat.reviewCount ∧
    sampleCat.reviewCount ≠ sampleCat.reviewCount + 1 := by
  constructor
  · decide
  · decide

/-- An accumulator-aware bound for `findIdx?`: a found index lies between
the accumulator and the accumulator plus the list length. -/
theorem findIdx?_some_bound {α : Type} (p : α → Bool) :
    ∀ (l : List α) (k i : Nat), List.findIdx? p l k = some i →
      k ≤ i ∧ i < k + l.length := by
  intro l
  induction l with
  | nil => intro k i h; simp [List.findIdx?_nil] at h
  | cons a t ih =>
    intro k i h
    rw [List.findIdx?_cons] at h
    by_cases hp : p a = true
    · rw [if_pos hp] at h
      cases h
      simp only [List.length_cons]
      omega
    · rw [if_neg hp] at h
      have := ih (k + 1) i h
      simp only [List.length_cons]
      omega

/-- An `updateWord` whose patch leaves `reviewLevel`, `nextReviewDate` and
`reviewCount` absent preserves those three fields of every stored entry. -/
theorem updateWord_preserves (ws : List WordEntry) (id : String)
    (p : WordPatch) (hrl : p.reviewLevel = none)
    (hrd : p.nextReviewDate = none) (hrc : p.reviewCount = none) (j : Nat) :
    ((updateWord ws id p)[j]?).map (fun w => w.reviewCount) =
      (ws[j]?).map (fun w => w.reviewCount) ∧
    ((updateWord ws id p)[j]?).map (fun w => w.reviewLevel) =
      (ws[j]?).map (fun w => w.reviewLevel) ∧
    ((updateWord ws id p)[j]?).map (fun w => w.nextReviewDate) =
      (ws[j]?).map (fun w => w.nextReviewDate) := by
  unfold updateWord
  cases hfind : ws.findIdx? (fun w => w.id == id) with
  | none => exact ⟨rfl, rfl, rfl⟩
  | some i =>
    have hb : i < ws.length := by
      have := findIdx?_some_bound _ ws 0 i hfind
      omega
    by_cases hij : i = j
    · subst hij
      have hgd : ws.getD i default = ws[i] := by
        simp [List.getD, List.getElem?_eq_getElem hb]
      rw [List.getElem?_set, if_pos rfl, if_pos hb, hgd,
        List.getElem?_eq_getElem hb]
      refine ⟨?_, ?_, ?_⟩ <;> simp [applyPatch, hrl, hrd, hrc]
    · rw [List.getElem?_set, if_neg hij]
      exact ⟨rfl, rfl, rfl⟩

/-- C4 amended: the completed passive per-card sequence (the run ending in
the auto-advance) leaves every stored word's `reviewCount`, `reviewLevel`
and `nextReviewDate` unchanged — its only persistent write is the
same-day image-cache fill; in particular the current word's
`reviewCount` is NOT incremented (the code never increments it). -/
theorem passiveSequence_frame_amended (today : String)
    (gen : WordEntry → String) (s : EngineState) (j : Nat) :
    ((runPassiveSequence today gen s).store[j]?).map (fun w => w.reviewCount) =
      (s.store[j]?).map (fun w => w.reviewCount) ∧
    ((runPassiveSequence today gen s).store[j]?).map (fun w => w.reviewLevel) =
      (s.store[j]?).map (fun w => w.reviewLevel) ∧
    ((runPassiveSequence today gen s).store[j]?).map
        (fun w => w.nextReviewDate) =
      (s.store[j]?).map (fun w => w.nextReviewDate) := by
  have hnext : ∀ x : EngineState, (handleNext x).store = x.store := by
    intro x
    unfold handleNext finishSession
    split <;> rfl
  unfold runPassiveSequence
  cases hcur : s.queue[s.cursor]? with
  | none => exact ⟨rfl, rfl, rfl⟩
  | some w =>
    simp only [hnext]
    by_cases hcond :
        ((w.todayImage.getD "").isEmpty || w.todayImageDate != some today) =
          true
    · rw [if_pos hcond]
      exact updateWord_preserves s.store w.id _ rfl rfl rfl j
    · rw [if_neg hcond]
      exact ⟨rfl, rfl, rfl⟩

/-- C4 counterexample: a full passive pass over `sampleDog` (which needs a
fresh image) leaves its stored `reviewCount` at 1 — not 1 + 1 as the
claim requires; the passive sequence's only store write is the image
cache. -/
theorem passiveSequence_reviewCount_counterexample :
    ((runPassiveSequence "2026-10-11" (fun _ => "img.png")
        (initSession [sampleDog] [sampleDog, sampleCat])).store.getD 0
        default).reviewCount = sampleDog.reviewCount ∧
    sampleDog.reviewCount ≠ sampleDog.reviewCount + 1 := by
  constructor
  · decide
  · decide

/-- C8: in both modes, a truthy same-day cached image is reused with zero
generator calls; resolving twice for the same word on the same day issues
no call on the second resolution; and whenever a resolution does issue
calls, no same-day cache was present and the fresh image is persisted
keyed by today. (The generator is assumed to return a non-empty handle.) -/
theorem illustrationCache_spec (modeActive : Bool) (today : String)
    (gen : String) (w : WordEntry) (hgen : gen ≠ "") :
    (sameDayCached today w = true →
      resolveIllustration modeActive today gen w = (w, 0)) ∧
    (resolveIllustration modeActive today gen
      (resolveIllustration modeActive today gen w).1).2 = 0 ∧
    (0 < (resolveIllustration modeActive today gen w).2 →
      sameDayCached today w = false ∧
      (resolveIllustration modeActive today gen w).1.todayImage = some gen ∧
      (resolveIllustration modeActive today gen w).1.todayImageDate =
        some today) := by
  have hg : gen.isEmpty = false := by
    rw [Bool.eq_false_iff]
    intro hc
    exact hgen ((String.isEmpty_iff gen).mp hc)
  by_cases himg : (w.todayImage.getD "").isEmpty = true
  · by_cases hdate : w.todayImageDate = some today
    · cases modeActive <;>
        simp [resolveIllustration, sameDayCached, himg, hdate, hg]
    · cases modeActive <;>
        simp [resolveIllustration, sameDayCached, himg, hdate, hg]
  · by_cases hdate : w.todayImageDate = some today
    · cases modeActive <;>
        simp [resolveIllustration, sameDayCached, himg, hdate, hg]
    · cases modeActive <;>
        simp [resolveIllustration, sameDayCached, himg, hdate, hg]

/-- Closed-form witness for `illustrationCache_spec`: active mode,
`sampleDog` (no cached image), generator returning "img.png". -/
theorem illustrationCache_spec_witness :
    ("img.png" : String) ≠ "" ∧
    ((sameDayCached "2026-10-11" sampleDog = true →
       resolveIllustration true "2026-10-11" "img.png" sampleDog =
         (sampleDog, 0)) ∧
     (resolveIllustration true "2026-10-11" "img.png"
       (resolveIllustration true "2026-10-11" "img.png" sampleDog).1).2 = 0 ∧
     (0 < (resolveIllustration true "2026-10-11" "img.png" sampleDog).2 →
       sameDayCached "2026-10-11" sampleDog = false ∧
       (resolveIllustration true "2026-10-11" "img.png"
         sampleDog).1.todayImage = some "img.png" ∧
       (resolveIllustration true "2026-10-11" "img.png"
         sampleDog).1.todayImageDate = some "2026-10-11")) :=
  ⟨by decide,
   illustrationCache_spec true "2026-10-11" "img.png" sampleDog (by decide)⟩

/-- C9 counterexample: a session constructed over an empty word list emits
no `onComplete` notification at all — the component just renders the
"All done!" placeholder (ReviewSession.tsx line 197) and `finishSession`
is never reached, so completion is NOT reported to the host. -/
theorem emptySession_counterexample :
    (initSession [] []).events = [] ∧
    showsDonePlaceholder (initSession [] []) = true := ⟨rfl, rfl⟩

/-- C9 amended: on an empty word list the engine renders the completion
placeholder but never invokes `onComplete` by itself; only an explicit
Exit would emit a (zero-reward) notification. -/
theorem emptySession_amended (store : List WordEntry) :
    (initSession store []).events = [] ∧
    showsDonePlaceholder (initSession store []) = true ∧
    (exitSession (initSession store [])).events = [0] := ⟨rfl, rfl, rfl⟩

end LingoPet
